import Mathlib

/-!
# Verification of the threat_plotter mapping/binning/decay core

Shallow embedding of the C sources of `threat_plotter` (files
`src/hilbert.c`, `src/timebin.c`, `src/visualize.c`) in Lean 4, together
with proofs and refutations of the testable properties stated in the
project specification.

Modelling conventions:
* C unsigned machine integers (`uint8_t`/`uint32_t`/`uint64_t`) become `Nat`
  with explicit `% 2^32` exactly where the C computation can wrap.
* `time_t` (signed) becomes `Int`; C's signed division truncates toward
  zero, i.e. `Int.tdiv`.
* Arrays indexed by `y * dimension + x` become functions `Nat → Nat`.
* Functions that mutate through pointers return the updated value.
-/

/-- The modulus of C `uint32_t` arithmetic. -/
def U32 : Nat := 4294967296

/-! ## Curve codec (src/hilbert.c) -/

/-- `isValidOrder` from src/hilbert.c:81: order must lie in
`[HILBERT_ORDER_MIN, HILBERT_ORDER_MAX] = [4, 16]`. -/
def isValidOrder (order : Nat) : Bool :=
  4 ≤ order && order ≤ 16

/-- `getDimension` from src/hilbert.c:110: `2^order` for a valid order,
`0` otherwise. -/
def getDimension (order : Nat) : Nat :=
  if isValidOrder order then 2 ^ order else 0

/-- `getTotalPoints` from src/hilbert.c:142: `dimension²` for a valid
order, `0` otherwise. -/
def getTotalPoints (order : Nat) : Nat :=
  if isValidOrder order then getDimension order * getDimension order else 0

/-- `rot` from src/hilbert.c:397: the Hilbert quadrant rotate/flip.
The C mutates `*x`/`*y` in place; we return the resulting pair.
`uint32_t` subtraction `n - 1 - v` wraps modulo `2^32`; it is modelled as
`(n - 1 + U32 - v) % U32`, which agrees with it whenever `v < U32`
(true at every call site, as the proofs establish). -/
def rot (n x y rx ry : Nat) : Nat × Nat :=
  if ry = 0 then
    if rx = 1 then
      ((n - 1 + U32 - y) % U32, (n - 1 + U32 - x) % U32)
    else
      (y, x)
  else
    (x, y)

/-- The body of the encoding loop of `hilbertXYToIndex`
(src/hilbert.c:441), with fuel `k+1` meaning the current mask is
`s = 2^k`; the C loop runs `s = n/2, n/4, …, 1`, i.e. starts at fuel
`order`.  `rx = (x & s) > 0` is `0` or `1`. -/
def hilbertLoopEncode : Nat → Nat → Nat → Nat
  | 0, _, _ => 0
  | k + 1, x, y =>
    let s := 2 ^ k
    let rx := if x &&& s = 0 then 0 else 1
    let ry := if y &&& s = 0 then 0 else 1
    let p := rot s x y rx ry
    s * s * ((3 * rx) ^^^ ry) + hilbertLoopEncode k p.1 p.2

/-- `hilbertXYToIndex` from src/hilbert.c:441.  For an invalid order
`getDimension` is `0`, the C loop body never runs and the result is `0`. -/
def hilbertXYToIndex (x y : Nat) (order : Nat) : Nat :=
  if isValidOrder order then hilbertLoopEncode order x y else 0

/-- One iteration of the decoding loop of `hilbertIndexToXY`
(src/hilbert.c:485): derive `rx`, `ry` from the two low base-4 digits of
the remaining index `d`, rotate, and accumulate `s·rx`, `s·ry`. -/
def decodeStep (s d x y : Nat) : Nat × Nat :=
  let rx := 1 &&& (d / 2)
  let ry := 1 &&& (d ^^^ rx)
  let p := rot s x y rx ry
  (p.1 + s * rx, p.2 + s * ry)

/-- The decoding loop of `hilbertIndexToXY` (src/hilbert.c:485): the C
loop runs `s = 1, 2, …` while `s < n`, which for `n = 2^order` is exactly
`order` iterations; `fuel` counts the remaining iterations. -/
def hilbertLoopDecode : Nat → Nat → Nat → Nat → Nat → Nat × Nat
  | 0, _, _, x, y => (x, y)
  | fuel + 1, s, d, x, y =>
    let p := decodeStep s d x y
    hilbertLoopDecode fuel (s * 2) (d / 4) p.1 p.2

/-- `hilbertIndexToXY` from src/hilbert.c:485.  The C writes through
out-pointers initialised to `0`; we return the pair.  For an invalid
order `n = 0`, the loop never runs and the result is `(0, 0)`. -/
def hilbertIndexToXY (index : Nat) (order : Nat) : Nat × Nat :=
  if isValidOrder order then hilbertLoopDecode order 1 index 0 0 else (0, 0)

/-! ## Address classifier (src/hilbert.c:533) -/

/-- `isNonRoutableIP` from src/hilbert.c:533, translated branch for
branch.  Octets are extracted exactly as in C (`(ipv4 >> k) & 0xFF`). -/
def isNonRoutableIP (ipv4 : Nat) : Bool :=
  let octet1 := (ipv4 >>> 24) &&& 0xFF
  let octet2 := (ipv4 >>> 16) &&& 0xFF
  let octet3 := (ipv4 >>> 8) &&& 0xFF
  if octet1 = 0 then true
  else if octet1 = 10 then true
  else if octet1 = 100 ∧ (64 ≤ octet2 ∧ octet2 ≤ 127) then true
  else if octet1 = 127 then true
  else if octet1 = 169 ∧ octet2 = 254 then true
  else if octet1 = 172 ∧ (16 ≤ octet2 ∧ octet2 ≤ 31) then true
  else if octet1 = 192 ∧ octet2 = 0 ∧ octet3 = 0 then true
  else if octet1 = 192 ∧ octet2 = 0 ∧ octet3 = 2 then true
  else if octet1 = 192 ∧ octet2 = 88 ∧ octet3 = 99 then true
  else if octet1 = 192 ∧ octet2 = 168 then true
  else if octet1 = 198 ∧ (octet2 = 18 ∨ octet2 = 19) then true
  else if octet1 = 198 ∧ octet2 = 51 ∧ octet3 = 100 then true
  else if octet1 = 203 ∧ octet2 = 0 ∧ octet3 = 113 then true
  else if 224 ≤ octet1 ∧ octet1 ≤ 239 then true
  else if 240 ≤ octet1 then true
  else false

/-- Membership of `addr` in the CIDR range `net/p` (spec-side notion for
the classifier claim): the top `p` bits agree with `net`. -/
def inCIDRRange (net p addr : Nat) : Prop :=
  addr / 2 ^ (32 - p) = net / 2 ^ (32 - p)

/-- The union of the 15 reserved/private ranges the spec enumerates for
`is_non_routable` (spec §4.B), written from the spec, to be compared with
the source's `isNonRoutableIP`. -/
def specNonRoutable (addr : Nat) : Prop :=
  inCIDRRange 0x00000000 8 addr ∨
  inCIDRRange 0x0A000000 8 addr ∨
  inCIDRRange 0x64400000 10 addr ∨
  inCIDRRange 0x7F000000 8 addr ∨
  inCIDRRange 0xA9FE0000 16 addr ∨
  inCIDRRange 0xAC100000 12 addr ∨
  inCIDRRange 0xC0000000 24 addr ∨
  inCIDRRange 0xC0000200 24 addr ∨
  inCIDRRange 0xC0586300 24 addr ∨
  inCIDRRange 0xC0A80000 16 addr ∨
  inCIDRRange 0xC6120000 15 addr ∨
  inCIDRRange 0xC6336400 24 addr ∨
  inCIDRRange 0xCB007100 24 addr ∨
  inCIDRRange 0xE0000000 4 addr ∨
  inCIDRRange 0xF0000000 4 addr

/-! ## Time binning (src/timebin.c) -/

/-- `getBinForTime` from src/timebin.c:220.  `time_t` is signed, and C
signed division truncates toward zero, which is `Int.tdiv`. -/
def getBinForTime (event_time : Int) (bin_seconds : Nat) : Int :=
  (Int.tdiv event_time bin_seconds) * bin_seconds

/-- `TimeBin_t` from src/timebin.h: one time bin's heatmap raster and
statistics.  The `heatmap` array is modelled as a total function on the
row-major index `y * dimension + x`. -/
structure TimeBin where
  bin_start : Int
  bin_end : Int
  dimension : Nat
  heatmap : Nat → Nat
  event_count : Nat
  unique_ips : Nat
  max_intensity : Nat

/-- `createTimeBin` from src/timebin.c:271 (allocation failure aside):
zeroed heatmap, `bin_end = start + bin_seconds`. -/
def createTimeBin (start_time : Int) (bin_seconds : Nat) (dimension : Nat) : TimeBin :=
  { bin_start := start_time
    bin_end := start_time + bin_seconds
    dimension := dimension
    heatmap := fun _ => 0
    event_count := 0
    unique_ips := 0
    max_intensity := 0 }

/-- `addEventToBin` from src/timebin.c:447: bounds-check, then increment
the cell, the event count and possibly `max_intensity`.  The C returns
`FALSE` and leaves the bin untouched when a coordinate is out of range;
we return the flag together with the (possibly updated) bin. -/
def addEventToBin (bin : TimeBin) (x y : Nat) : Bool × TimeBin :=
  if x ≥ bin.dimension ∨ y ≥ bin.dimension then
    (false, bin)
  else
    let idx := y * bin.dimension + x
    let hit := bin.heatmap idx + 1
    (true,
      { bin with
        heatmap := fun i => if i = idx then hit else bin.heatmap i
        event_count := bin.event_count + 1
        max_intensity := if hit > bin.max_intensity then hit else bin.max_intensity })

/-- `finalizeBin` from src/timebin.c:518: scan the heatmap and count the
non-zero cells into `unique_ips`. -/
def finalizeBin (bin : TimeBin) : TimeBin :=
  { bin with
    unique_ips := (List.range (bin.dimension * bin.dimension)).countP
      (fun i => bin.heatmap i ≠ 0) }

/-- `DecayCacheEntry_t` from src/timebin.h: `coord_key = (x << 16) | y`. -/
structure DecayCacheEntry where
  coord_key : Nat
  last_seen : Int
  intensity : Nat

/-- `TimeBinConfig_t` from src/timebin.h (output-path fields omitted:
the core claims do not touch them). -/
structure TimeBinConfig where
  bin_seconds : Nat
  hilbert_order : Nat
  dimension : Nat
  decay_seconds : Nat

/-- `TimeBinManager_t` from src/timebin.h.  `cache_size` is the length
of `decay_cache`; the residue map is a total function on the row-major
index. -/
structure TimeBinManager where
  config : TimeBinConfig
  current_bin : Option TimeBin
  total_bins : Nat
  bins_written : Nat
  decay_cache : List DecayCacheEntry
  cache_capacity : Nat
  residue_map : Nat → Nat
  residue_count : Nat
  residue_max_volume : Nat

/-- `createTimeBinManager` from src/timebin.c:598 (allocation failure
aside): empty bin, empty decay cache with capacity
`DECAY_CACHE_MAX_ENTRIES = 65536`, zeroed residue map. -/
def createTimeBinManager (config_in : TimeBinConfig) : TimeBinManager :=
  { config := config_in
    current_bin := none
    total_bins := 0
    bins_written := 0
    decay_cache := []
    cache_capacity := 65536
    residue_map := fun _ => 0
    residue_count := 0
    residue_max_volume := 0 }

/-- The linear search-and-update of `updateDecayCache`
(src/timebin.c:880): update the first entry with the given key in place;
report whether one was found. -/
def updateDecayCacheList (key : Nat) (event_time : Int) (intensity : Nat) :
    List DecayCacheEntry → Bool × List DecayCacheEntry
  | [] => (false, [])
  | e :: rest =>
    if e.coord_key = key then
      (true, { e with last_seen := event_time, intensity := e.intensity + intensity } :: rest)
    else
      let p := updateDecayCacheList key event_time intensity rest
      (p.1, e :: p.2)

/-- `updateDecayCache` from src/timebin.c:866: update an existing entry
for `coord_key = (x <<< 16) ||| y`, else append a fresh one if the cache
is not full. -/
def updateDecayCache (m : TimeBinManager) (x y : Nat) (event_time : Int)
    (intensity : Nat) : TimeBinManager :=
  let coord_key := (x <<< 16) ||| y
  let p := updateDecayCacheList coord_key event_time intensity m.decay_cache
  if p.1 then
    { m with decay_cache := p.2 }
  else if m.decay_cache.length < m.cache_capacity then
    { m with decay_cache := m.decay_cache ++ [⟨coord_key, event_time, intensity⟩] }
  else
    m

/-- `markResidue` from src/timebin.c:1117: bounds-check, then increment
the cell's cumulative volume, `residue_count` on a cell's first hit, and
`residue_max_volume` when a new maximum is reached.  The residue cells
and counters are `uint32_t`, so each `++` wraps modulo `2^32`. -/
def markResidue (m : TimeBinManager) (x y : Nat) : TimeBinManager :=
  if x ≥ m.config.dimension ∨ y ≥ m.config.dimension then
    m
  else
    let idx := y * m.config.dimension + x
    let vol := (m.residue_map idx + 1) % U32
    { m with
      residue_count := if m.residue_map idx = 0 then (m.residue_count + 1) % U32
                       else m.residue_count
      residue_map := fun i => if i = idx then vol else m.residue_map i
      residue_max_volume := if vol > m.residue_max_volume then vol else m.residue_max_volume }

/-- `getResidue` from src/timebin.c:1169: the cell's cumulative volume,
`0` out of range. -/
def getResidue (m : TimeBinManager) (x y : Nat) : Nat :=
  if x ≥ m.config.dimension ∨ y ≥ m.config.dimension then 0
  else m.residue_map (y * m.config.dimension + x)

/-- Representation invariant of the `uint32_t` residue array: every cell
value is below `2^32`.  It holds for the zeroed initial map and is
preserved by every `processEvent` step. -/
def ResidueBounded (m : TimeBinManager) : Prop :=
  ∀ i, m.residue_map i < U32

/-- The bin-lifecycle step of `processEvent` (src/timebin.c:783-799): if
there is no current bin, or the event's bin start differs from the
current bin's, finalize the current bin (its finalized value is rendered
externally and dies with `destroyTimeBin`, so only `bins_written`
remains observable), destroy it, and create a fresh bin at `bin_start`. -/
def rollBin (m : TimeBinManager) (bin_start : Int) : TimeBinManager :=
  match m.current_bin with
  | none =>
    { m with
      current_bin := some (createTimeBin bin_start m.config.bin_seconds m.config.dimension)
      total_bins := m.total_bins + 1 }
  | some b =>
    if bin_start ≠ b.bin_start then
      { m with
        bins_written := m.bins_written + 1
        current_bin := some (createTimeBin bin_start m.config.bin_seconds m.config.dimension)
        total_bins := m.total_bins + 1 }
    else
      m

/-- The final step of `processEvent` (src/timebin.c:808): add the event
to the current bin, propagating `addEventToBin`'s return flag. -/
def addToCurrent (m : TimeBinManager) (x y : Nat) : Bool × TimeBinManager :=
  match m.current_bin with
  | some b =>
    let p := addEventToBin b x y
    (p.1, { m with current_bin := some p.2 })
  | none => (false, m)

/-- `processEvent` from src/timebin.c:771: roll the bin if the event's
bin start differs, then update the decay cache, mark the residue map,
and add the event to the current bin. -/
def processEvent (m : TimeBinManager) (event_time : Int) (x y : Nat) :
    Bool × TimeBinManager :=
  let bin_start := getBinForTime event_time m.config.bin_seconds
  let m1 := rollBin m bin_start
  let m2 := updateDecayCache m1 x y event_time 1
  let m3 := markResidue m2 x y
  addToCurrent m3 x y

/-- Run `processEvent` over a list of `(timestamp, x, y)` events. -/
def runEvents (m : TimeBinManager) : List (Int × Nat × Nat) → TimeBinManager
  | [] => m
  | e :: rest => runEvents (processEvent m e.1 e.2.1 e.2.2).2 rest

/-! ## Visualization (src/visualize.c)

The colour pipeline of `intensityToColor` and the blend branch of
`writePPM` use C `float` arithmetic.  They are modelled over `ℚ` with
exact arithmetic; the C cast `(uint8_t)` of a non-negative value
truncates, i.e. takes the floor.  Every theorem below about these
definitions only exercises paths on which the binary32 computation is
exact (`intensity == 0` short-circuits, `v ≥ max` saturation, and the
integer-only residue/overlay branches), so the `ℚ` idealisation agrees
with the C result there. -/

/-- `RGB_t` from src/visualize.h. -/
structure RGB where
  r : Nat
  g : Nat
  b : Nat
deriving DecidableEq

/-- `intensityToColor` from src/visualize.c:534: black for zero
intensity; otherwise guard `max_intensity == 0 → 1`, normalize, apply the
50%-floor brightness ramp and the white→yellow→red gradient. -/
def intensityToColor (intensity max_intensity : Nat) : RGB :=
  if intensity = 0 then
    ⟨0, 0, 0⟩
  else
    let maxI := if max_intensity = 0 then 1 else max_intensity
    let normalized : ℚ := (intensity : ℚ) / (maxI : ℚ)
    let enhanced : ℚ := 1/2 + 1/2 * normalized
    let enhanced := if enhanced > 1 then 1 else enhanced
    let enhanced := if enhanced < 1/2 then 1/2 else enhanced
    let t : ℚ := (enhanced - 1/2) / (1/2)
    if t < 1/2 then
      ⟨255, 255, (255 * (1 - 2 * t)).floor.toNat⟩
    else
      ⟨255, (255 * (2 - 2 * t)).floor.toNat, 0⟩

/-- The per-cell colour selection of `writePPM` (src/visualize.c:736-776)
for a source cell inside the curve area: `has_residue_map` models
`residue_map != NULL`, `residue` the cell's residue count,
`nonroutable` the mask bit (`nonroutable_mask && nonroutable_mask[idx]`).
Order of the C tests: residue-grey first (`residue_shown`), then the
non-routable overlay, skipped when the residue was shown. -/
def cellColor (has_residue_map : Bool) (residue intensity max_intensity : Nat)
    (nonroutable : Bool) : RGB :=
  let residue_shown := has_residue_map && residue != 0 && intensity == 0
  let color := if residue_shown then ⟨54, 54, 54⟩
               else intensityToColor intensity max_intensity
  if nonroutable && !residue_shown then
    if intensity == 0 then
      ⟨0, 0, 30⟩
    else
      ⟨((color.r : ℚ) * (6/10)).floor.toNat,
       ((color.g : ℚ) * (6/10)).floor.toNat,
       ((color.b : ℚ) * (6/10) + 30 * (4/10)).floor.toNat⟩
  else
    color

/-! ## CIDR band table and address mapper (src/hilbert.c) -/

/-- `CIDRMapEntry_t` from src/hilbert.c:624. -/
structure CIDRMapEntry where
  network : Nat
  mask : Nat
  prefix_len : Nat
  timezone_offset : Int
  x_start : Nat
  x_end : Nat
deriving DecidableEq

/-- One slot of the 256-entry direct-mapped lookup cache
(`CIDRCacheEntry_t`, src/hilbert.c:867).  The C stores a pointer into
`cidr_map` (or `NULL`); we store the entry's value (or `none`). -/
structure CIDRCacheSlot where
  ip : Nat
  entry : Option CIDRMapEntry
  access_count : Nat

/-- The mutable state of the CIDR subsystem: the frozen sorted table
(`cidr_map` with `cidr_map_count` entries, as a list) and the lookup
cache, as a function from the slot index `ip &&& 255`.  The hit/miss
statistics counters (debug-only) are omitted. -/
structure CidrState where
  table : List CIDRMapEntry
  cache : Nat → CIDRCacheSlot

/-- The zeroed cache of the first `findCIDRMapping` call
(`memset(cidr_cache, 0, …)`, src/hilbert.c:920). -/
def initCidrState (table : List CIDRMapEntry) : CidrState :=
  { table := table, cache := fun _ => ⟨0, none, 0⟩ }

/-- The linear scan of the sorted table inside `findCIDRMapping`
(src/hilbert.c:942-947): the first entry with
`(ipv4 & mask) == network`, or none. -/
def scanCIDRTable (table : List CIDRMapEntry) (ipv4 : Nat) : Option CIDRMapEntry :=
  table.find? (fun e => ipv4 &&& e.mask == e.network)

/-- `findCIDRMapping` from src/hilbert.c:913: consult cache slot
`ipv4 &&& 255`; on a hit (stored ip matches and stored entry is
non-null) bump the slot's access count and return the stored entry;
otherwise linear-scan the table and overwrite the slot with the result
(even a `none`). -/
def findCIDRMapping (st : CidrState) (ipv4 : Nat) : Option CIDRMapEntry × CidrState :=
  let cache_idx := ipv4 &&& 255
  let slot := st.cache cache_idx
  if slot.ip = ipv4 ∧ slot.entry.isSome then
    (slot.entry,
      { st with cache := fun j =>
          if j = cache_idx then { slot with access_count := slot.access_count + 1 }
          else st.cache j })
  else
    let result := scanCIDRTable st.table ipv4
    (result,
      { st with cache := fun j =>
          if j = cache_idx then ⟨ipv4, result, 1⟩ else st.cache j })

/-- The banded branch of `ipToHilbert` (src/hilbert.c:1049-1090): the
X position inside the matched entry's timezone band from the /16 network,
the Y position from the low 16 bits.  All `uint32_t` products, sums and
the width subtraction wrap modulo `2^32`. -/
def bandedCoord (entry : CIDRMapEntry) (ipv4 : Nat) (dimension : Nat) : Nat × Nat :=
  let tz_band_width := (entry.x_end + U32 - entry.x_start) % U32
  let tz_band_width := if tz_band_width = 0 then 1 else tz_band_width
  let oct1 := (ipv4 >>> 24) &&& 0xFF
  let oct2 := (ipv4 >>> 16) &&& 0xFF
  let oct3 := (ipv4 >>> 8) &&& 0xFF
  let oct4 := ipv4 &&& 0xFF
  let network_16 := (oct1 <<< 8) ||| oct2
  let x_offset := (network_16 * tz_band_width) % U32 / 65536
  let x := (entry.x_start + x_offset) % U32
  let x := if x ≥ entry.x_end then (if 0 < entry.x_end then entry.x_end - 1 else 0) else x
  let ip_hash := (oct3 <<< 8) ||| oct4
  let y := (ip_hash * dimension) % U32 / 65536
  (x, y)

/-- The direct branch of `ipToHilbert` (src/hilbert.c:1102-1121): scale
the full 32-bit address proportionally onto the curve
(`index = (ipv4 * total_points) >> 32`, computed in `uint64_t`, which
cannot overflow for `ipv4 < 2^32`), clamp, and decode. -/
def directCoord (ipv4 : Nat) (order : Nat) : Nat × Nat :=
  let total_points := getTotalPoints order
  let index := (ipv4 * total_points) >>> 32
  let index := if index ≥ total_points then total_points - 1 else index
  hilbertIndexToXY index order

/-- `ipToHilbert` from src/hilbert.c:1040: banded via `findCIDRMapping`
when the table is loaded and non-empty and the lookup matched, direct
otherwise.  Returns the coordinate together with the updated cache
state.  (`HilbertCoord_t.order` is the `order` argument unchanged and is
not carried.) -/
def ipToHilbert (st : CidrState) (ipv4 : Nat) (order : Nat) : (Nat × Nat) × CidrState :=
  if st.table ≠ [] then
    match findCIDRMapping st ipv4 with
    | (some entry, st1) => (bandedCoord entry ipv4 (getDimension order), st1)
    | (none, st1) => (directCoord ipv4 order, st1)
  else
    (directCoord ipv4 order, st)

/-- The reachable-cache invariant of the CIDR lookup cache: every slot
holding a non-null entry holds exactly the linear-scan result for the
address stored in that slot.  It holds for the zeroed initial cache and
is preserved by every lookup. -/
def CacheInv (st : CidrState) : Prop :=
  ∀ i, ((st.cache i).entry).isSome →
    (st.cache i).entry = scanCIDRTable st.table ((st.cache i).ip)

/-! # Theorems -/

/-! ## C10: addEventToBin error atomicity -/

/-- C10: for every bin and every coordinate with `x ≥ dimension` or
`y ≥ dimension`, `addEventToBin` returns `FALSE` and leaves the bin
entirely unchanged (no heatmap cell, `event_count`, `max_intensity`
or any other field is modified). -/
theorem addEventToBin_out_of_range (bin : TimeBin) (x y : Nat)
    (h : x ≥ bin.dimension ∨ y ≥ bin.dimension) :
    addEventToBin bin x y = (false, bin) := by
  unfold addEventToBin
  rw [if_pos h]

/-- Witness for C10 at a concrete bin and out-of-range coordinate. -/
theorem addEventToBin_out_of_range_witness :
    addEventToBin (createTimeBin 0 60 16) 20 3 = (false, createTimeBin 0 60 16) :=
  addEventToBin_out_of_range (createTimeBin 0 60 16) 20 3 (Or.inl (by decide))

/-! ## C2: bin alignment (corrected)

`getBinForTime` uses C signed division, which truncates toward zero; the
spec's floor-division bracketing `target_start(ts) ≤ ts` therefore fails
for negative non-multiple timestamps (e.g. `ts = -1`), while the upper
bound and idempotence hold for all timestamps. -/

/-- C2 counterexample: at `ts = -1`, `bin_seconds = 60`, the code yields
bin start `0`, and `0 ≤ -1` is false — the claimed lower bound fails on a
negative timestamp. -/
theorem getBinForTime_neg_counterexample :
    getBinForTime (-1) 60 = 0 ∧ ¬ getBinForTime (-1) 60 ≤ -1 := by
  constructor
  · rfl
  · decide

/-- C2 (amended): for `bin_seconds > 0`, the lower bound
`getBinForTime ts ≤ ts` holds for all `ts ≥ 0` (truncating division
agrees with floor there); the upper bound
`ts < getBinForTime ts + bin_seconds` and idempotence
`getBinForTime (getBinForTime ts) = getBinForTime ts` hold for all
timestamps, negative ones included. -/
theorem getBinForTime_alignment (ts : Int) (bin_seconds : Nat) (hb : 0 < bin_seconds) :
    (0 ≤ ts → getBinForTime ts bin_seconds ≤ ts)
    ∧ ts < getBinForTime ts bin_seconds + bin_seconds
    ∧ getBinForTime (getBinForTime ts bin_seconds) bin_seconds
        = getBinForTime ts bin_seconds := by
  have hbz : (bin_seconds : Int) ≠ 0 := by exact_mod_cast hb.ne'
  have hbpos : (0 : Int) < bin_seconds := by exact_mod_cast hb
  refine ⟨?_, ?_, ?_⟩
  · intro hts
    unfold getBinForTime
    rw [Int.tdiv_eq_ediv hts (by positivity)]
    exact Int.ediv_mul_le ts hbz
  · unfold getBinForTime
    have h := Int.lt_tdiv_add_one_mul_self ts hbpos
    nlinarith [h]
  · unfold getBinForTime
    rw [Int.mul_tdiv_cancel _ hbz]

/-- Witness for C2's amended theorem at `ts = 125`, `bin_seconds = 60`. -/
theorem getBinForTime_alignment_witness :
    ((0 : Int) ≤ 125 → getBinForTime 125 60 ≤ 125)
    ∧ (125 : Int) < getBinForTime 125 60 + 60
    ∧ getBinForTime (getBinForTime 125 60) 60 = getBinForTime 125 60 :=
  getBinForTime_alignment 125 60 (by decide)

/-! ## C7: the non-routable classifier matches the 15 spec ranges -/

theorem and_255_eq_mod (x : Nat) : x &&& 255 = x % 256 := by
  have h := Nat.and_pow_two_sub_one_eq_mod x 8
  norm_num at h
  exact h

set_option maxHeartbeats 1000000 in
/-- C7: for every 32-bit address, `isNonRoutableIP` returns true exactly
when the address lies in the union of the 15 RFC ranges the spec lists,
and false for every other address. -/
theorem isNonRoutableIP_iff_ranges (addr : Nat) (h : addr < U32) :
    isNonRoutableIP addr = true ↔ specNonRoutable addr := by
  have hU : addr < 4294967296 := h
  simp only [isNonRoutableIP, specNonRoutable, inCIDRRange, Nat.shiftRight_eq_div_pow,
    and_255_eq_mod]
  norm_num
  have l1 : addr / 16777216 % 256 = 0 ↔ addr / 16777216 = 0 := by omega
  have l2 : addr / 16777216 % 256 = 10 ↔ addr / 16777216 = 10 := by omega
  have l3 : (addr / 16777216 % 256 = 100 ∧ 64 ≤ addr / 65536 % 256 ∧ addr / 65536 % 256 ≤ 127)
      ↔ addr / 4194304 = 401 := by omega
  have l4 : addr / 16777216 % 256 = 127 ↔ addr / 16777216 = 127 := by omega
  have l5 : (addr / 16777216 % 256 = 169 ∧ addr / 65536 % 256 = 254)
      ↔ addr / 65536 = 43518 := by omega
  have l6 : (addr / 16777216 % 256 = 172 ∧ 16 ≤ addr / 65536 % 256 ∧ addr / 65536 % 256 ≤ 31)
      ↔ addr / 1048576 = 2753 := by omega
  have l7 : (addr / 16777216 % 256 = 192 ∧ addr / 65536 % 256 = 0 ∧ addr / 256 % 256 = 0)
      ↔ addr / 256 = 12582912 := by omega
  have l8 : (addr / 16777216 % 256 = 192 ∧ addr / 65536 % 256 = 0 ∧ addr / 256 % 256 = 2)
      ↔ addr / 256 = 12582914 := by omega
  have l9 : (addr / 16777216 % 256 = 192 ∧ addr / 65536 % 256 = 88 ∧ addr / 256 % 256 = 99)
      ↔ addr / 256 = 12605539 := by omega
  have l10 : (addr / 16777216 % 256 = 192 ∧ addr / 65536 % 256 = 168)
      ↔ addr / 65536 = 49320 := by omega
  have l11 : (addr / 16777216 % 256 = 198 ∧ (addr / 65536 % 256 = 18 ∨ addr / 65536 % 256 = 19))
      ↔ addr / 131072 = 25353 := by omega
  have l12 : (addr / 16777216 % 256 = 198 ∧ addr / 65536 % 256 = 51 ∧ addr / 256 % 256 = 100)
      ↔ addr / 256 = 12989284 := by omega
  have l13 : (addr / 16777216 % 256 = 203 ∧ addr / 65536 % 256 = 0 ∧ addr / 256 % 256 = 113)
      ↔ addr / 256 = 13303921 := by omega
  have l14 : (224 ≤ addr / 16777216 % 256 ∧ addr / 16777216 % 256 ≤ 239)
      ↔ addr / 268435456 = 14 := by omega
  have l15 : 240 ≤ addr / 16777216 % 256 ↔ addr / 268435456 = 15 := by omega
  exact or_congr l1 (or_congr l2 (or_congr l3 (or_congr l4 (or_congr l5 (or_congr l6
    (or_congr l7 (or_congr l8 (or_congr l9 (or_congr l10 (or_congr l11 (or_congr l12
    (or_congr l13 (or_congr l14 l15)))))))))))))

/-- Witness for C7 at `1.1.1.1 = 16843009` (routable: both sides false). -/
theorem isNonRoutableIP_iff_ranges_witness :
    isNonRoutableIP 16843009 = true ↔ specNonRoutable 16843009 :=
  isNonRoutableIP_iff_ranges 16843009 (by decide)

/-! ## C9: intensityToColor division guard -/

/-- C9: `intensityToColor` is total with its division guarded:
`intensity == 0` short-circuits to black `(0,0,0)` before any division
is reached; for `intensity > 0` and `max_intensity == 0` the code
substitutes `max_intensity = 1` rather than dividing by zero, so
`intensityToColor v 0 = intensityToColor v 1`, which for `v ≥ 1` is the
full-intensity colour `(255, 0, 0)`.  (On these inputs the binary32
computation of the C code is exact, so the `ℚ` model agrees with it.) -/
theorem intensityToColor_guarded (v m : Nat) :
    intensityToColor 0 m = ⟨0, 0, 0⟩
    ∧ intensityToColor v 0 = intensityToColor v 1
    ∧ (1 ≤ v → intensityToColor v 0 = ⟨255, 0, 0⟩) := by
  refine ⟨by simp [intensityToColor], rfl, ?_⟩
  intro hv
  have hv0 : v ≠ 0 := by omega
  unfold intensityToColor
  rw [if_neg hv0]
  norm_num
  have hcast : (1 : ℚ) ≤ (v : ℚ) := by exact_mod_cast hv
  rcases eq_or_lt_of_le hcast with heq | hlt
  · rw [← heq]
    norm_num
    decide
  · have h1 : (1 : ℚ) < 1/2 + 1/2 * (v : ℚ) := by linarith
    rw [if_pos h1]
    norm_num
    decide

/-- Witness for C9 at `v = 2`, `m = 5`. -/
theorem intensityToColor_guarded_witness :
    intensityToColor 0 5 = ⟨0, 0, 0⟩
    ∧ intensityToColor 2 0 = intensityToColor 2 1
    ∧ intensityToColor 2 0 = ⟨255, 0, 0⟩ :=
  ⟨(intensityToColor_guarded 2 5).1, (intensityToColor_guarded 2 5).2.1,
   (intensityToColor_guarded 2 5).2.2 (by decide)⟩

/-! ## C5: writePPM colour selection for idle cells (corrected)

In the code the residue-grey test fires first and sets `residue_shown`,
and the non-routable overlay is skipped when the residue was shown
("Skip blue overlay if residue is shown to avoid obscuring it",
src/visualize.c:757), so an idle non-routable cell with positive residue
renders grey, not blue as the claim's rule order demands. -/

/-- C5 counterexample: an idle non-routable cell with positive residue
(`v = 0`, residue `1`, mask bit set, residue map present) is rendered
dark grey `(54,54,54)` by the code, not dark blue `(0,0,30)`. -/
theorem cellColor_idle_nr_residue_grey :
    cellColor true 1 0 0 true = ⟨54, 54, 54⟩
    ∧ ¬ cellColor true 1 0 0 true = ⟨0, 0, 30⟩ := by decide

/-- C5 (amended): for an idle source cell (`v == 0`) the first matching
rule is the residue rule — `r > 0` (with the residue map present)
renders `(54,54,54)` whether or not the cell is non-routable — and an
idle non-routable cell renders `(0,0,30)` exactly when no residue was
shown (`r == 0`, or no residue map). -/
theorem cellColor_idle_rules (maxI residue : Nat) (nr hm : Bool) :
    (0 < residue → cellColor true residue 0 maxI nr = ⟨54, 54, 54⟩)
    ∧ cellColor hm 0 0 maxI true = ⟨0, 0, 30⟩
    ∧ cellColor false residue 0 maxI true = ⟨0, 0, 30⟩ := by
  refine ⟨?_, ?_, ?_⟩
  · intro hr
    have hne : (residue != 0) = true := by simpa using hr.ne'
    simp [cellColor, hne]
  · cases hm <;> simp [cellColor]
  · simp [cellColor]

/-- Witness for C5's amended theorem at residue `3`, both overlay
flags set. -/
theorem cellColor_idle_rules_witness :
    cellColor true 3 0 7 true = ⟨54, 54, 54⟩
    ∧ cellColor true 0 0 7 true = ⟨0, 0, 30⟩
    ∧ cellColor false 3 0 7 true = ⟨0, 0, 30⟩ :=
  ⟨(cellColor_idle_rules 7 3 true true).1 (by decide),
   (cellColor_idle_rules 7 3 true true).2.1,
   (cellColor_idle_rules 7 3 true true).2.2⟩

/-! ## C3: banded mapping stays in band (corrected)

The clamp `if (coord.x >= x_end) coord.x = x_end > 0 ? x_end - 1 : 0`
drops the result to `x_end - 1`, which for a degenerate band with
`band_start == band_end > 0` lies *below* `band_start`, so the claimed
lower bound fails exactly there; for `band_start < band_end` (and for
`band_end = 0`) the claimed bounds hold. -/

/-- C3 counterexample: the band `(x_start, x_end) = (5, 5)` satisfies the
data-model invariant `band_start ≤ band_end < dimension` for
`dimension = 16`, yet the banded path maps any address (here `0`) to
`x = 4 < 5 = band_start`. -/
theorem bandedCoord_degenerate_counterexample :
    (⟨0, 0, 0, 0, 5, 5⟩ : CIDRMapEntry).x_start ≤ (⟨0, 0, 0, 0, 5, 5⟩ : CIDRMapEntry).x_end
    ∧ (⟨0, 0, 0, 0, 5, 5⟩ : CIDRMapEntry).x_end < 16
    ∧ (bandedCoord ⟨0, 0, 0, 0, 5, 5⟩ 0 16).1 = 4
    ∧ ¬ (⟨0, 0, 0, 0, 5, 5⟩ : CIDRMapEntry).x_start
        ≤ (bandedCoord ⟨0, 0, 0, 0, 5, 5⟩ 0 16).1 := by
  decide

/-- C3 (amended): under the data-model invariant
`band_start ≤ band_end < dimension` (and `dimension ≤ 2^16`), the banded
`x` satisfies `band_start ≤ x < max(band_end, 1)` whenever
`band_start < band_end` or `band_end = 0`; in the remaining degenerate
case `band_start = band_end > 0` the clamp yields exactly
`x = band_end - 1` (one below `band_start`). -/
theorem bandedCoord_in_band (entry : CIDRMapEntry) (ipv4 dimension : Nat)
    (hse : entry.x_start ≤ entry.x_end) (hed : entry.x_end < dimension)
    (hdim : dimension ≤ 65536) :
    (entry.x_start < entry.x_end ∨ entry.x_end = 0 →
      entry.x_start ≤ (bandedCoord entry ipv4 dimension).1
      ∧ (bandedCoord entry ipv4 dimension).1 < max entry.x_end 1)
    ∧ (entry.x_start = entry.x_end ∧ 0 < entry.x_end →
      (bandedCoord entry ipv4 dimension).1 = entry.x_end - 1) := by
  obtain ⟨net, mask, pl, tz, a, b⟩ := entry
  simp only at hse hed hdim ⊢
  have hb16 : b < 65536 := lt_of_lt_of_le hed hdim
  have hn16 : (((ipv4 >>> 24) &&& 255) <<< 8) ||| ((ipv4 >>> 16) &&& 255) < 65536 := by
    have h1 : (((ipv4 >>> 24) &&& 255) <<< 8) < 2 ^ 16 := by
      have : (ipv4 >>> 24) &&& 255 < 256 := by
        rw [and_255_eq_mod]; exact Nat.mod_lt _ (by norm_num)
      rw [Nat.shiftLeft_eq]
      norm_num
      omega
    have h2 : ((ipv4 >>> 16) &&& 255) < 2 ^ 16 := by
      have : (ipv4 >>> 16) &&& 255 < 256 := by
        rw [and_255_eq_mod]; exact Nat.mod_lt _ (by norm_num)
      norm_num
      omega
    have h := Nat.or_lt_two_pow h1 h2
    norm_num at h
    exact h
  simp only [bandedCoord, U32]
  generalize hg : (((ipv4 >>> 24) &&& 255) <<< 8) ||| ((ipv4 >>> 16) &&& 255) = n16 at hn16 ⊢
  have hw0 : (b + 4294967296 - a) % 4294967296 = b - a := by
    have h1 : b + 4294967296 - a = (b - a) + 4294967296 := by omega
    rw [h1, Nat.add_mod_right, Nat.mod_eq_of_lt (by omega)]
  rw [hw0]
  by_cases hwz : b - a = 0
  · -- width clamped to 1: offset is 0, x starts at a
    rw [if_pos hwz]
    rw [Nat.mul_one, Nat.mod_eq_of_lt (show n16 < 4294967296 by omega),
        Nat.div_eq_of_lt hn16, Nat.add_zero,
        Nat.mod_eq_of_lt (show a < 4294967296 by omega)]
    constructor
    · rintro (hab | hb0) <;> [omega; skip]
      subst hb0
      have ha0 : a = 0 := by omega
      subst ha0
      simp
    · rintro ⟨hab, hbpos⟩
      subst hab
      rw [if_pos (by omega), if_pos hbpos]
  · -- genuine band: no clamping
    rw [if_neg hwz]
    have hprod : n16 * (b - a) < 4294967296 := by
      have := Nat.mul_lt_mul_of_lt_of_le hn16 (show b - a ≤ 65536 by omega)
        (show 0 < 65536 by norm_num)
      omega
    rw [Nat.mod_eq_of_lt hprod]
    have hoff : n16 * (b - a) / 65536 < b - a := by
      apply Nat.div_lt_of_lt_mul
      exact (Nat.mul_lt_mul_right (by omega)).mpr hn16
    generalize hOff : n16 * (b - a) / 65536 = off at hoff
    rw [Nat.mod_eq_of_lt (by omega)]
    constructor
    · rintro (hab | hb0)
      · rw [if_neg (by omega)]
        omega
      · omega
    · rintro ⟨hab, hbpos⟩
      omega

/-- Witness for C3's amended theorem at the spec's scenario band
`8.8.0.0/16 → [100, 200)` with address `8.8.1.2` and order 12. -/
theorem bandedCoord_in_band_witness :
    ((100 : Nat) < 200 ∨ (200 : Nat) = 0 →
      (100 : Nat) ≤ (bandedCoord ⟨134742016, 4294901760, 16, 0, 100, 200⟩ 134742274 4096).1
      ∧ (bandedCoord ⟨134742016, 4294901760, 16, 0, 100, 200⟩ 134742274 4096).1 < max 200 1)
    ∧ ((100 : Nat) = 200 ∧ (0 : Nat) < 200 →
      (bandedCoord ⟨134742016, 4294901760, 16, 0, 100, 200⟩ 134742274 4096).1 = 200 - 1) :=
  bandedCoord_in_band ⟨134742016, 4294901760, 16, 0, 100, 200⟩ 134742274 4096
    (by decide) (by decide) (by decide)

/-! ## C8: residue counting and monotonicity (corrected)

The residue cells are `uint32_t`: `residue_map[idx]++` wraps modulo
`2^32`, so the residue equals the per-cell event count only modulo
`2^32`, and it decreases (to 0) at the `2^32`-th hit on a cell. -/

theorem cell_index_inj {d x y a b : Nat} (hx : x < d) (ha : a < d)
    (h : y * d + x = b * d + a) : x = a ∧ y = b := by
  have hd : 0 < d := by omega
  rw [Nat.mul_comm y d, Nat.mul_comm b d] at h
  have hxa : x = a := by
    have h2 : (d * y + x) % d = (d * b + a) % d := by rw [h]
    rwa [Nat.mul_add_mod, Nat.mul_add_mod, Nat.mod_eq_of_lt hx, Nat.mod_eq_of_lt ha] at h2
  subst hxa
  exact ⟨rfl, Nat.eq_of_mul_eq_mul_left hd (Nat.add_right_cancel h)⟩

theorem updateDecayCache_frame (m : TimeBinManager) (x y : Nat) (t : Int) (i : Nat) :
    (updateDecayCache m x y t i).residue_map = m.residue_map
    ∧ (updateDecayCache m x y t i).config = m.config := by
  unfold updateDecayCache
  dsimp only
  split_ifs <;> exact ⟨rfl, rfl⟩

theorem markResidue_config (m : TimeBinManager) (a b : Nat) :
    (markResidue m a b).config = m.config := by
  unfold markResidue
  split_ifs <;> rfl

theorem getResidue_markResidue (m : TimeBinManager) (a b x y : Nat)
    (hx : x < m.config.dimension) (hy : y < m.config.dimension) :
    getResidue (markResidue m a b) x y
      = if a = x ∧ b = y then (getResidue m x y + 1) % U32 else getResidue m x y := by
  have hxy : ¬ (x ≥ m.config.dimension ∨ y ≥ m.config.dimension) := by omega
  unfold markResidue
  by_cases hab : a ≥ m.config.dimension ∨ b ≥ m.config.dimension
  · rw [if_pos hab]
    have hne : ¬ (a = x ∧ b = y) := by
      rintro ⟨rfl, rfl⟩
      omega
    rw [if_neg hne]
  · rw [if_neg hab]
    simp only [getResidue]
    rw [if_neg hxy, if_neg hxy]
    have halt : a < m.config.dimension := by omega
    by_cases heq : a = x ∧ b = y
    · obtain ⟨rfl, rfl⟩ := heq
      rw [if_pos rfl, if_pos ⟨rfl, rfl⟩]
    · have hidx : ¬ (y * m.config.dimension + x = b * m.config.dimension + a) := by
        intro hcontra
        obtain ⟨h1, h2⟩ := cell_index_inj hx halt hcontra
        exact heq ⟨h1.symm, h2.symm⟩
      rw [if_neg hidx, if_neg heq]

theorem markResidue_bounded (m : TimeBinManager) (a b : Nat) (h : ResidueBounded m) :
    ResidueBounded (markResidue m a b) := by
  unfold markResidue
  by_cases hab : a ≥ m.config.dimension ∨ b ≥ m.config.dimension
  · rw [if_pos hab]
    exact h
  · rw [if_neg hab]
    intro i
    dsimp only
    by_cases hi : i = b * m.config.dimension + a
    · rw [if_pos hi]
      exact Nat.mod_lt _ (by norm_num [U32])
    · rw [if_neg hi]
      exact h i

theorem getResidue_monotone_step (m : TimeBinManager) (a b x y : Nat)
    (hlt : getResidue m x y + 1 < U32) :
    getResidue m x y ≤ getResidue (markResidue m a b) x y := by
  by_cases hxy : x ≥ m.config.dimension ∨ y ≥ m.config.dimension
  · have h1 : getResidue m x y = 0 := by
      unfold getResidue
      rw [if_pos hxy]
    rw [h1]
    exact Nat.zero_le _
  · have hx : x < m.config.dimension := by omega
    have hy : y < m.config.dimension := by omega
    rw [getResidue_markResidue m a b x y hx hy]
    by_cases heq : a = x ∧ b = y
    · rw [if_pos heq, Nat.mod_eq_of_lt hlt]
      omega
    · rw [if_neg heq]

theorem rollBin_frame (m : TimeBinManager) (s : Int) :
    (rollBin m s).residue_map = m.residue_map ∧ (rollBin m s).config = m.config := by
  unfold rollBin
  cases m.current_bin <;> dsimp only <;> (try split_ifs) <;> exact ⟨rfl, rfl⟩

theorem addToCurrent_frame (m : TimeBinManager) (x y : Nat) :
    ((addToCurrent m x y).2).residue_map = m.residue_map
    ∧ ((addToCurrent m x y).2).config = m.config := by
  unfold addToCurrent
  cases m.current_bin <;> exact ⟨rfl, rfl⟩

theorem getResidue_eq_of (m1 m2 : TimeBinManager) (x y : Nat)
    (h1 : m1.config = m2.config) (h2 : m1.residue_map = m2.residue_map) :
    getResidue m1 x y = getResidue m2 x y := by
  unfold getResidue
  rw [h1, h2]

theorem markResidue_frame (m : TimeBinManager) (a b : Nat) :
    (markResidue m a b).config = m.config := by
  unfold markResidue
  split_ifs <;> rfl

theorem getResidue_processEvent (m : TimeBinManager) (t : Int) (a b x y : Nat)
    (hx : x < m.config.dimension) (hy : y < m.config.dimension) :
    getResidue (processEvent m t a b).2 x y
      = if a = x ∧ b = y then (getResidue m x y + 1) % U32 else getResidue m x y := by
  unfold processEvent
  set s := getBinForTime t m.config.bin_seconds
  set m1 := rollBin m s with hm1
  set m2 := updateDecayCache m1 a b t 1 with hm2
  set m3 := markResidue m2 a b with hm3
  have hf1 := rollBin_frame m s
  have hf2 := updateDecayCache_frame m1 a b t 1
  have hc2 : m2.config = m.config := by rw [hm2, hf2.2, hf1.2]
  have hr2 : m2.residue_map = m.residue_map := by rw [hm2, hf2.1, hf1.1]
  have hf4 := addToCurrent_frame m3 a b
  have e1 : getResidue (addToCurrent m3 a b).2 x y = getResidue m3 x y :=
    getResidue_eq_of _ _ x y hf4.2 hf4.1
  rw [e1, hm3]
  have hx2 : x < m2.config.dimension := by rw [hc2]; exact hx
  have hy2 : y < m2.config.dimension := by rw [hc2]; exact hy
  rw [getResidue_markResidue m2 a b x y hx2 hy2]
  rw [getResidue_eq_of m2 m x y hc2 hr2]

theorem processEvent_config (m : TimeBinManager) (t : Int) (a b : Nat) :
    ((processEvent m t a b).2).config = m.config := by
  unfold processEvent
  rw [(addToCurrent_frame _ _ _).2, markResidue_frame,
    (updateDecayCache_frame _ _ _ _ _).2, (rollBin_frame _ _).2]

theorem processEvent_bounded (m : TimeBinManager) (t : Int) (a b : Nat)
    (h : ResidueBounded m) : ResidueBounded (processEvent m t a b).2 := by
  unfold processEvent
  intro i
  rw [(addToCurrent_frame _ _ _).1]
  refine markResidue_bounded _ a b ?_ i
  intro j
  rw [(updateDecayCache_frame _ _ _ _ _).1, (rollBin_frame _ _).1]
  exact h j

theorem getResidue_processEvent_mono (m : TimeBinManager) (t : Int) (a b x y : Nat)
    (hlt : getResidue m x y + 1 < U32) :
    getResidue m x y ≤ getResidue (processEvent m t a b).2 x y := by
  unfold processEvent
  have hf1 := rollBin_frame m (getBinForTime t m.config.bin_seconds)
  have hf2 := updateDecayCache_frame (rollBin m (getBinForTime t m.config.bin_seconds)) a b t 1
  have hf4 := addToCurrent_frame
    (markResidue (updateDecayCache (rollBin m (getBinForTime t m.config.bin_seconds)) a b t 1) a b) a b
  rw [getResidue_eq_of _ _ x y hf4.2 hf4.1]
  have heq : getResidue m x y
      = getResidue (updateDecayCache (rollBin m (getBinForTime t m.config.bin_seconds)) a b t 1) x y := by
    refine (getResidue_eq_of _ _ x y ?_ ?_).symm
    · rw [hf2.2, hf1.2]
    · rw [hf2.1, hf1.1]
  calc getResidue m x y
      = getResidue (updateDecayCache (rollBin m (getBinForTime t m.config.bin_seconds)) a b t 1) x y :=
        heq
    _ ≤ _ := getResidue_monotone_step _ a b x y (by rw [← heq]; exact hlt)

theorem runEvents_residue (evs : List (Int × Nat × Nat)) :
    ∀ (m : TimeBinManager) (x y : Nat), ResidueBounded m →
      x < m.config.dimension → y < m.config.dimension →
      getResidue (runEvents m evs) x y
        = (getResidue m x y + evs.countP (fun e => e.2.1 == x && e.2.2 == y)) % U32 := by
  induction evs with
  | nil =>
    intro m x y hbnd hx hy
    have hglt : getResidue m x y < U32 := by
      unfold getResidue
      rw [if_neg (by omega)]
      exact hbnd _
    simp [runEvents, Nat.mod_eq_of_lt hglt]
  | cons e rest ih =>
    intro m x y hbnd hx hy
    have hcfg := processEvent_config m e.1 e.2.1 e.2.2
    have hbnd2 := processEvent_bounded m e.1 e.2.1 e.2.2 hbnd
    have hx2 : x < ((processEvent m e.1 e.2.1 e.2.2).2).config.dimension := by
      rw [hcfg]; exact hx
    have hy2 : y < ((processEvent m e.1 e.2.1 e.2.2).2).config.dimension := by
      rw [hcfg]; exact hy
    simp only [runEvents]
    rw [ih _ x y hbnd2 hx2 hy2, getResidue_processEvent m e.1 e.2.1 e.2.2 x y hx hy,
      List.countP_cons]
    by_cases hc : e.2.1 = x ∧ e.2.2 = y
    · have hb : (e.2.1 == x && e.2.2 == y) = true := by
        simp [hc.1, hc.2]
      rw [if_pos hc]
      simp only [hb, if_true]
      simp only [U32]
      omega
    · have hb : (e.2.1 == x && e.2.2 == y) = false := by
        rcases not_and_or.mp hc with h | h <;> simp [h]
      rw [if_neg hc]
      simp [hb]

theorem countP_replicate_true {α : Type} (p : α → Bool) (a : α) (hp : p a = true) :
    ∀ n, (List.replicate n a).countP p = n := by
  intro n
  induction n with
  | zero => simp
  | succ n ih =>
    rw [List.replicate_succ, List.countP_cons, ih, hp]
    simp

/-- C8 counterexample: the residue cells are `uint32_t` and wrap.  After
`2^32 - 1` events all at cell `(1, 2)` the residue there is `2^32 - 1`,
but after `2^32` such events it is `0`: the residue is not the number of
events that mapped to the cell (which is `2^32`), and processing the
`2^32`-th event *decreased* the cell's residue from `2^32 - 1` to `0`. -/
theorem residue_wrap_counterexample :
    getResidue (runEvents (createTimeBinManager ⟨60, 4, 16, 3600⟩)
        (List.replicate (U32 - 1) ((0 : Int), 1, 2))) 1 2 = U32 - 1
    ∧ getResidue (runEvents (createTimeBinManager ⟨60, 4, 16, 3600⟩)
        (List.replicate U32 ((0 : Int), 1, 2))) 1 2 = 0
    ∧ (List.replicate U32 ((0 : Int), 1, 2)).countP
        (fun e => e.2.1 == 1 && e.2.2 == 2) = U32
    ∧ ¬ (U32 - 1 : Nat) ≤ 0 := by
  have hb : ResidueBounded (createTimeBinManager ⟨60, 4, 16, 3600⟩) := by
    intro i
    simp [createTimeBinManager, U32]
  have hcount1 : (List.replicate (U32 - 1) ((0 : Int), 1, 2)).countP
      (fun e => e.2.1 == 1 && e.2.2 == 2) = U32 - 1 :=
    countP_replicate_true _ _ (by decide) (U32 - 1)
  have hcount2 : (List.replicate U32 ((0 : Int), 1, 2)).countP
      (fun e => e.2.1 == 1 && e.2.2 == 2) = U32 :=
    countP_replicate_true _ _ (by decide) U32
  refine ⟨?_, ?_, hcount2, by norm_num [U32]⟩
  · rw [runEvents_residue _ _ 1 2 hb (by norm_num [createTimeBinManager])
      (by norm_num [createTimeBinManager]), hcount1]
    simp [createTimeBinManager, getResidue]
  · rw [runEvents_residue _ _ 1 2 hb (by norm_num [createTimeBinManager])
      (by norm_num [createTimeBinManager]), hcount2]
    simp [createTimeBinManager, getResidue]

/-- C8 (amended): the residue cells are `uint32_t`, so the count wraps:
after any sequence of `processEvent` calls starting from a fresh
manager, for every in-range cell `(x, y)` the residue `getResidue m x y`
equals the number of processed events whose coordinate was `(x, y)`
*modulo 2^32*; and a cell's residue never decreases across a
`processEvent` call as long as it is below `2^32 - 1` (only the
`2^32`-th hit on a cell wraps it back to 0). -/
theorem residue_counts_events_mod (cfg : TimeBinConfig) (evs : List (Int × Nat × Nat))
    (x y : Nat) (hx : x < cfg.dimension) (hy : y < cfg.dimension) :
    getResidue (runEvents (createTimeBinManager cfg) evs) x y
      = evs.countP (fun e => e.2.1 == x && e.2.2 == y) % U32
    ∧ ∀ (m : TimeBinManager) (t : Int) (a b : Nat),
        getResidue m x y + 1 < U32 →
        getResidue m x y ≤ getResidue (processEvent m t a b).2 x y := by
  constructor
  · rw [runEvents_residue evs (createTimeBinManager cfg) x y
      (fun i => by simp [createTimeBinManager, U32]) hx hy]
    simp [getResidue, createTimeBinManager]
  · intro m t a b hlt
    exact getResidue_processEvent_mono m t a b x y hlt

/-- Witness for C8's amended theorem at a 16×16 manager and three
concrete events, two of which hit cell `(1, 2)`. -/
theorem residue_counts_events_mod_witness :
    (getResidue (runEvents (createTimeBinManager ⟨60, 4, 16, 3600⟩)
        [(0, 1, 2), (70, 1, 2), (70, 3, 4)]) 1 2
      = ([(0, 1, 2), (70, 1, 2), (70, 3, 4)] : List (Int × Nat × Nat)).countP
          (fun e => e.2.1 == 1 && e.2.2 == 2) % U32)
    ∧ getResidue (createTimeBinManager ⟨60, 4, 16, 3600⟩) 1 2
        ≤ getResidue (processEvent (createTimeBinManager ⟨60, 4, 16, 3600⟩) 0 1 2).2 1 2 :=
  ⟨(residue_counts_events_mod ⟨60, 4, 16, 3600⟩ [(0, 1, 2), (70, 1, 2), (70, 3, 4)] 1 2
      (by decide) (by decide)).1,
   (residue_counts_events_mod ⟨60, 4, 16, 3600⟩ [(0, 1, 2), (70, 1, 2), (70, 3, 4)] 1 2
      (by decide) (by decide)).2 (createTimeBinManager ⟨60, 4, 16, 3600⟩) 0 1 2 (by decide)⟩

/-! ## C6: cached CIDR lookup refines the linear scan -/

theorem findCIDRMapping_table (st : CidrState) (a : Nat) :
    ((findCIDRMapping st a).2).table = st.table := by
  unfold findCIDRMapping
  dsimp only
  split_ifs <;> rfl

theorem findCIDRMapping_fst (st : CidrState) (a : Nat) (hinv : CacheInv st) :
    (findCIDRMapping st a).1 = scanCIDRTable st.table a := by
  unfold findCIDRMapping
  dsimp only
  split_ifs with hhit
  · rw [hinv (a &&& 255) hhit.2, hhit.1]
  · rfl

theorem findCIDRMapping_inv (st : CidrState) (a : Nat) (hinv : CacheInv st) :
    CacheInv (findCIDRMapping st a).2 := by
  unfold findCIDRMapping
  dsimp only
  split_ifs with hhit
  · intro i hi
    dsimp only at hi ⊢
    by_cases hieq : i = (a &&& 255)
    · rw [if_pos hieq] at hi ⊢
      exact hinv (a &&& 255) hi
    · rw [if_neg hieq] at hi ⊢
      exact hinv i hi
  · intro i hi
    dsimp only at hi ⊢
    by_cases hieq : i = (a &&& 255)
    · rw [if_pos hieq] at hi ⊢
    · rw [if_neg hieq] at hi ⊢
      exact hinv i hi

/-- C6: with a frozen table, `findCIDRMapping` returns exactly what the
plain linear scan of the table returns — the first entry matching
`(addr &&& mask) == network`, or none — for every cache state reachable
from the zeroed initial cache (`CacheInv`, which holds initially and is
preserved by every lookup); consequently `ipToHilbert` is deterministic:
an immediate repeated call returns the identical coordinate. -/
theorem findCIDRMapping_matches_scan (st : CidrState) (a order : Nat)
    (hinv : CacheInv st) :
    (findCIDRMapping st a).1 = scanCIDRTable st.table a
    ∧ CacheInv (findCIDRMapping st a).2
    ∧ CacheInv (initCidrState st.table)
    ∧ (ipToHilbert st a order).1 = (ipToHilbert (ipToHilbert st a order).2 a order).1 := by
  refine ⟨findCIDRMapping_fst st a hinv, findCIDRMapping_inv st a hinv, ?_, ?_⟩
  · intro i hi
    simp [initCidrState] at hi
  · by_cases hT : st.table = []
    · simp [ipToHilbert, hT]
    · rcases hE : findCIDRMapping st a with ⟨r, st1⟩
      have hr : r = scanCIDRTable st.table a := by
        have := findCIDRMapping_fst st a hinv
        rw [hE] at this
        exact this
      have hinv1 : CacheInv st1 := by
        have := findCIDRMapping_inv st a hinv
        rw [hE] at this
        exact this
      have htab : st1.table = st.table := by
        have := findCIDRMapping_table st a
        rw [hE] at this
        exact this
      have hT1 : st1.table ≠ [] := by rw [htab]; exact hT
      rcases hE2 : findCIDRMapping st1 a with ⟨r2, st2⟩
      have hr2 : r2 = r := by
        have := findCIDRMapping_fst st1 a hinv1
        rw [hE2, htab, ← hr] at this
        exact this
      cases hrc : r with
      | none =>
        simp [ipToHilbert, hT, hT1, hE, hE2, hr2, hrc]
      | some e =>
        simp [ipToHilbert, hT, hT1, hE, hE2, hr2, hrc]

/-- Witness for C6 on the zeroed cache with a one-band table and the
scenario address `8.8.1.2`. -/
theorem findCIDRMapping_matches_scan_witness :
    (findCIDRMapping (initCidrState [⟨134742016, 4294901760, 16, 0, 100, 200⟩]) 134742274).1
      = scanCIDRTable (initCidrState [⟨134742016, 4294901760, 16, 0, 100, 200⟩]).table 134742274
    ∧ CacheInv (findCIDRMapping (initCidrState [⟨134742016, 4294901760, 16, 0, 100, 200⟩]) 134742274).2
    ∧ CacheInv (initCidrState (initCidrState [⟨134742016, 4294901760, 16, 0, 100, 200⟩]).table)
    ∧ (ipToHilbert (initCidrState [⟨134742016, 4294901760, 16, 0, 100, 200⟩]) 134742274 12).1
      = (ipToHilbert (ipToHilbert (initCidrState [⟨134742016, 4294901760, 16, 0, 100, 200⟩]) 134742274 12).2
          134742274 12).1 :=
  findCIDRMapping_matches_scan (initCidrState [⟨134742016, 4294901760, 16, 0, 100, 200⟩])
    134742274 12 (by intro i hi; simp [initCidrState] at hi)

/-! ## C1: Hilbert curve round-trip

The C encoder calls `rot(s, …)`, whose `uint32_t` subtraction `s-1-x`
wraps when `x ≥ s`; only the low bits of the wrapped values feed later
iterations, which `hilbertLoopEncode_mod` makes precise.  The proof
splits the decode loop around its last iteration
(`hilbertLoopDecode_split`), shows the encoder emits one base-4 digit
per level (`hilbertLoopEncode_lt`), and inverts the top-level quadrant
step case by case. -/
theorem one_and_eq_mod_two (n : Nat) : 1 &&& n = n % 2 := by
  rw [Nat.and_comm]
  exact Nat.and_one_is_mod n

theorem xor_mod_two (a b : Nat) : (a ^^^ b) % 2 = (a % 2 + b % 2) % 2 := by
  rw [← Nat.and_one_is_mod (a ^^^ b), Nat.and_xor_distrib_right,
    Nat.and_one_is_mod, Nat.and_one_is_mod]
  rcases Nat.mod_two_eq_zero_or_one a with ha | ha <;>
    rcases Nat.mod_two_eq_zero_or_one b with hb | hb <;>
      rw [ha, hb] <;> decide

theorem if_and_two_pow (x k : Nat) :
    (if x &&& 2 ^ k = 0 then 0 else 1) = x / 2 ^ k % 2 := by
  have h := Nat.and_two_pow x k
  have ht : x.testBit k = decide (x / 2 ^ k % 2 = 1) := Nat.testBit_to_div_mod
  by_cases hb : x / 2 ^ k % 2 = 1
  · rw [hb]
    rw [ht, decide_eq_true hb] at h
    simp only [Bool.toNat_true, Nat.one_mul] at h
    rw [if_neg]
    rw [h]
    positivity
  · have hb0 : x / 2 ^ k % 2 = 0 := by omega
    rw [ht, decide_eq_false hb] at h
    simp only [Bool.toNat_false, Nat.zero_mul] at h
    rw [if_pos h, hb0]

theorem wrap_sub_small (s v : Nat) (hsU : s ≤ U32) (hv : v < s) :
    (s - 1 + U32 - v) % U32 = s - 1 - v := by
  have h1 : s - 1 + U32 - v = (s - 1 - v) + U32 := by omega
  rw [h1, Nat.add_mod_right, Nat.mod_eq_of_lt (by omega)]

theorem wrap_sub_mod (m M v : Nat) (hm : 0 < m) (hdvd : m ∣ M) (hv : v < M) :
    ((m - 1 + M - v) % M) % m = m - 1 - v % m := by
  obtain ⟨c, rfl⟩ := hdvd
  have hb : v % m < m := Nat.mod_lt v hm
  have hab : m * (v / m) + v % m = v := Nat.div_add_mod v m
  have ha : v / m < c := by
    rw [Nat.div_lt_iff_lt_mul hm]
    calc v < m * c := hv
      _ = c * m := Nat.mul_comm m c
  have key : m - 1 + m * c - v = (m - 1 - v % m) + m * (c - v / m) := by
    rw [Nat.mul_sub_left_distrib]
    omega
  rw [Nat.mod_mod_of_dvd _ ⟨c, rfl⟩, key, Nat.add_mul_mod_self_left,
    Nat.mod_eq_of_lt (by omega)]

theorem two_pow_mul_self (k : Nat) : 2 ^ k * 2 ^ k = 4 ^ k := by
  rw [← Nat.pow_add, show k + k = 2 * k by ring, Nat.pow_mul]

theorem hilbertLoopEncode_lt (k : Nat) : ∀ x y : Nat, hilbertLoopEncode k x y < 4 ^ k := by
  induction k with
  | zero =>
    intro x y
    simp [hilbertLoopEncode]
  | succ k ih =>
    intro x y
    simp only [hilbertLoopEncode]
    have hq : (3 * (if x &&& 2 ^ k = 0 then 0 else 1)) ^^^ (if y &&& 2 ^ k = 0 then 0 else 1) ≤ 3 := by
      split_ifs <;> decide
    have he := ih (rot (2 ^ k) x y (if x &&& 2 ^ k = 0 then 0 else 1)
      (if y &&& 2 ^ k = 0 then 0 else 1)).1
      (rot (2 ^ k) x y (if x &&& 2 ^ k = 0 then 0 else 1) (if y &&& 2 ^ k = 0 then 0 else 1)).2
    have hp : 2 ^ k * 2 ^ k = 4 ^ k := two_pow_mul_self k
    have h4 : (4 : Nat) ^ (k + 1) = 4 * 4 ^ k := by rw [Nat.pow_succ]; ring
    rw [hp]
    have hmul : 4 ^ k * ((3 * (if x &&& 2 ^ k = 0 then 0 else 1)) ^^^ (if y &&& 2 ^ k = 0 then 0 else 1))
        ≤ 4 ^ k * 3 := Nat.mul_le_mul_left _ hq
    omega

theorem hilbertLoopDecode_split (k : Nat) :
    ∀ s q e x y : Nat, e < 4 ^ k →
      hilbertLoopDecode (k + 1) s (4 ^ k * q + e) x y
        = decodeStep (s * 2 ^ k) q (hilbertLoopDecode k s e x y).1
            (hilbertLoopDecode k s e x y).2 := by
  induction k with
  | zero =>
    intro s q e x y he
    have he0 : e = 0 := by omega
    subst he0
    simp [hilbertLoopDecode]
  | succ k ih =>
    intro s q e x y he
    have hd2 : (4 ^ (k + 1) * q + e) / 2 % 2 = e / 2 % 2 := by
      have h1 : 4 ^ (k + 1) * q + e = e + 2 * (2 * 4 ^ k * q) := by
        rw [Nat.pow_succ]
        ring
      rw [h1, Nat.add_mul_div_left _ _ (by norm_num : (0:Nat) < 2),
        show 2 * 4 ^ k * q = 2 * (4 ^ k * q) by ring, Nat.add_mul_mod_self_left]
    have hd0 : (4 ^ (k + 1) * q + e) % 2 = e % 2 := by
      have h1 : 4 ^ (k + 1) * q + e = e + 2 * (2 * 4 ^ k * q) := by
        rw [Nat.pow_succ]
        ring
      rw [h1, show 2 * 4 ^ k * q = 2 * (4 ^ k * q) by ring, Nat.add_mul_mod_self_left]
    have hstep : decodeStep s (4 ^ (k + 1) * q + e) x y = decodeStep s e x y := by
      simp only [decodeStep]
      rw [one_and_eq_mod_two, one_and_eq_mod_two, hd2, one_and_eq_mod_two,
        one_and_eq_mod_two, xor_mod_two, xor_mod_two, hd0]
    have hdiv4 : (4 ^ (k + 1) * q + e) / 4 = 4 ^ k * q + e / 4 := by
      have h1 : 4 ^ (k + 1) * q + e = e + 4 * (4 ^ k * q) := by
        rw [Nat.pow_succ]
        ring
      rw [h1, Nat.add_mul_div_left _ _ (by norm_num : (0:Nat) < 4)]
      ring
    have he4 : e / 4 < 4 ^ k := by
      apply Nat.div_lt_of_lt_mul
      rw [show (4:Nat) * 4 ^ k = 4 ^ (k + 1) by rw [Nat.pow_succ]; ring]
      exact he
    show hilbertLoopDecode (k + 1) (s * 2) ((4 ^ (k + 1) * q + e) / 4)
        (decodeStep s (4 ^ (k + 1) * q + e) x y).1
        (decodeStep s (4 ^ (k + 1) * q + e) x y).2 = _
    rw [hstep, hdiv4, ih (s * 2) q (e / 4) (decodeStep s e x y).1 (decodeStep s e x y).2 he4]
    have hs : s * 2 * 2 ^ k = s * 2 ^ (k + 1) := by
      rw [Nat.pow_succ]
      ring
    rw [hs]
    rfl

theorem pow_dvd_U32 (k : Nat) (hk : k ≤ 32) : 2 ^ k ∣ U32 := by
  rw [show U32 = 2 ^ 32 from by norm_num [U32]]
  exact pow_dvd_pow 2 hk

theorem U32_pos : 0 < U32 := by norm_num [U32]

theorem bit_eq_of_mod_eq {x u k : Nat} (h : x % 2 ^ (k + 1) = u % 2 ^ (k + 1)) :
    x / 2 ^ k % 2 = u / 2 ^ k % 2 := by
  have h1 : x % 2 ^ (k + 1) / 2 ^ k = x / 2 ^ k % 2 := by
    rw [show (2 : Nat) ^ (k + 1) = 2 ^ k * 2 from by rw [Nat.pow_succ]]
    exact Nat.mod_mul_right_div_self x (2 ^ k) 2
  have h2 : u % 2 ^ (k + 1) / 2 ^ k = u / 2 ^ k % 2 := by
    rw [show (2 : Nat) ^ (k + 1) = 2 ^ k * 2 from by rw [Nat.pow_succ]]
    exact Nat.mod_mul_right_div_self u (2 ^ k) 2
  rw [← h1, ← h2, h]

theorem low_eq_of_mod_eq {x u k : Nat} (h : x % 2 ^ (k + 1) = u % 2 ^ (k + 1)) :
    x % 2 ^ k = u % 2 ^ k := by
  have hd : (2 : Nat) ^ k ∣ 2 ^ (k + 1) := pow_dvd_pow 2 (by omega)
  rw [← Nat.mod_mod_of_dvd x hd, ← Nat.mod_mod_of_dvd u hd, h]

theorem hilbertLoopEncode_mod (k : Nat) : k ≤ 32 →
    ∀ x y u v : Nat, x < U32 → y < U32 → u < U32 → v < U32 →
      x % 2 ^ k = u % 2 ^ k → y % 2 ^ k = v % 2 ^ k →
      hilbertLoopEncode k x y = hilbertLoopEncode k u v := by
  induction k with
  | zero =>
    intro _ x y u v _ _ _ _ _ _
    rfl
  | succ k ih =>
    intro hk x y u v hx hy hu hv hxu hyv
    have hk32 : k ≤ 32 := by omega
    have hxbit := bit_eq_of_mod_eq hxu
    have hybit := bit_eq_of_mod_eq hyv
    have hxlow := low_eq_of_mod_eq hxu
    have hylow := low_eq_of_mod_eq hyv
    simp only [hilbertLoopEncode, if_and_two_pow]
    rw [hxbit, hybit]
    congr 1
    rcases Nat.mod_two_eq_zero_or_one (v / 2 ^ k) with hry | hry
    · rcases Nat.mod_two_eq_zero_or_one (u / 2 ^ k) with hrx | hrx
      · rw [hry, hrx]
        simp only [rot, if_pos rfl, if_neg (by norm_num : ¬ (0 : Nat) = 1)]
        exact ih hk32 y x v u hy hx hv hu hylow hxlow
      · rw [hry, hrx]
        simp only [rot, if_pos rfl]
        apply ih hk32 _ _ _ _ (Nat.mod_lt _ U32_pos) (Nat.mod_lt _ U32_pos)
          (Nat.mod_lt _ U32_pos) (Nat.mod_lt _ U32_pos)
        · rw [wrap_sub_mod (2 ^ k) U32 y (Nat.pos_pow_of_pos k (by norm_num))
              (pow_dvd_U32 k hk32) hy,
            wrap_sub_mod (2 ^ k) U32 v (Nat.pos_pow_of_pos k (by norm_num))
              (pow_dvd_U32 k hk32) hv, hylow]
        · rw [wrap_sub_mod (2 ^ k) U32 x (Nat.pos_pow_of_pos k (by norm_num))
              (pow_dvd_U32 k hk32) hx,
            wrap_sub_mod (2 ^ k) U32 u (Nat.pos_pow_of_pos k (by norm_num))
              (pow_dvd_U32 k hk32) hu, hxlow]
    · rw [hry]
      simp only [rot, if_neg (by norm_num : ¬ (1 : Nat) = 0)]
      exact ih hk32 x y u v hx hy hu hv hxlow hylow

theorem rot_flag_00 (n x y : Nat) : rot n x y 0 0 = (y, x) := by
  simp [rot]

theorem rot_flag_01 (n x y : Nat) : rot n x y 0 1 = (x, y) := by
  simp [rot]

theorem rot_flag_11 (n x y : Nat) : rot n x y 1 1 = (x, y) := by
  simp [rot]

theorem rot_flag_10 (n x y : Nat) :
    rot n x y 1 0 = ((n - 1 + U32 - y) % U32, (n - 1 + U32 - x) % U32) := by
  simp [rot]

theorem decodeStep_q0 (s x y : Nat) : decodeStep s 0 x y = (y, x) := by
  simp [decodeStep, rot]

theorem decodeStep_q1 (s x y : Nat) : decodeStep s 1 x y = (x, y + s) := by
  simp [decodeStep, rot]

theorem decodeStep_q2 (s x y : Nat) : decodeStep s 2 x y = (x + s, y + s) := by
  simp [decodeStep, rot]

theorem decodeStep_q3 (s x y : Nat) (hx : x < s) (hy : y < s) (hsU : s ≤ U32) :
    decodeStep s 3 x y = (s - 1 - y + s, s - 1 - x) := by
  simp only [decodeStep]
  norm_num
  rw [rot_flag_10, wrap_sub_small s y hsU hy, wrap_sub_small s x hsU hx]
  exact ⟨rfl, rfl⟩

theorem hilbert_roundtrip_core (k : Nat) : k ≤ 31 →
    ∀ x y : Nat, x < 2 ^ k → y < 2 ^ k →
      hilbertLoopDecode k 1 (hilbertLoopEncode k x y) 0 0 = (x, y) := by
  induction k with
  | zero =>
    intro _ x y hx hy
    have hx0 : x = 0 := by omega
    have hy0 : y = 0 := by omega
    subst hx0
    subst hy0
    rfl
  | succ k ih =>
    intro hk x y hx hy
    have hk31 : k ≤ 31 := by omega
    have hU : U32 = 2 ^ 32 := by norm_num [U32]
    have hpow : (2 : Nat) ^ (k + 1) ≤ 2 ^ 32 := Nat.pow_le_pow_right (by norm_num) (by omega)
    have hxU : x < U32 := by omega
    have hyU : y < U32 := by omega
    have hsU : 2 ^ k ≤ U32 := by
      have : (2 : Nat) ^ k ≤ 2 ^ 32 := Nat.pow_le_pow_right (by norm_num) (by omega)
      omega
    have hxd : x / 2 ^ k < 2 :=
      Nat.div_lt_of_lt_mul (by rw [← Nat.pow_succ]; exact hx)
    have hyd : y / 2 ^ k < 2 :=
      Nat.div_lt_of_lt_mul (by rw [← Nat.pow_succ]; exact hy)
    have hxv : x = 2 ^ k * (x / 2 ^ k) + x % 2 ^ k := (Nat.div_add_mod x (2 ^ k)).symm
    have hyv : y = 2 ^ k * (y / 2 ^ k) + y % 2 ^ k := (Nat.div_add_mod y (2 ^ k)).symm
    have hxm : x % 2 ^ k < 2 ^ k := Nat.mod_lt x (Nat.two_pow_pos k)
    have hym : y % 2 ^ k < 2 ^ k := Nat.mod_lt y (Nat.two_pow_pos k)
    simp only [hilbertLoopEncode, if_and_two_pow, two_pow_mul_self]
    rw [hilbertLoopDecode_split k 1 _ _ 0 0 (hilbertLoopEncode_lt k _ _), Nat.one_mul]
    have hxcase : x / 2 ^ k = 0 ∨ x / 2 ^ k = 1 := by
      rcases Nat.eq_zero_or_pos (x / 2 ^ k) with h | h
      · exact Or.inl h
      · exact Or.inr (by omega)
    have hycase : y / 2 ^ k = 0 ∨ y / 2 ^ k = 1 := by
      rcases Nat.eq_zero_or_pos (y / 2 ^ k) with h | h
      · exact Or.inl h
      · exact Or.inr (by omega)
    rcases hxcase with hx1 | hx1 <;> rcases hycase with hy1 | hy1
    · -- top quadrant 0: swap only
      rw [hx1, hy1]
      have hxe : x % 2 ^ k = x := by
        have h := hxv
        rw [hx1] at h
        norm_num at h
        omega
      have hye : y % 2 ^ k = y := by
        have h := hyv
        rw [hy1] at h
        norm_num at h
        omega
      norm_num [rot_flag_00]
      rw [ih hk31 y x (by omega) (by omega)]
      rw [decodeStep_q0]
    · -- x-bit 0, y-bit 1: quadrant 1, identity rotation
      rw [hx1, hy1]
      have hxe : x % 2 ^ k = x := by
        have h := hxv
        rw [hx1] at h
        norm_num at h
        omega
      have hye : y = 2 ^ k + y % 2 ^ k := by
        have h := hyv
        rw [hy1] at h
        norm_num at h
        omega
      norm_num [rot_flag_01]
      have hxlt : x < 2 ^ k := by omega
      have hE : hilbertLoopEncode k x y = hilbertLoopEncode k x (y % 2 ^ k) :=
        hilbertLoopEncode_mod k (by omega) x y x (y % 2 ^ k) hxU hyU hxU (by omega)
          rfl (Nat.mod_mod_of_dvd y (dvd_refl _)).symm
      rw [hE, ih hk31 x (y % 2 ^ k) hxlt hym, decodeStep_q1]
      have : y % 2 ^ k + 2 ^ k = y := by omega
      rw [this]
    · -- x-bit 1, y-bit 0: quadrant 3, reflect and swap
      rw [hx1, hy1]
      have hxe : x = 2 ^ k + x % 2 ^ k := by
        have h := hxv
        rw [hx1] at h
        norm_num at h
        omega
      have hye : y % 2 ^ k = y := by
        have h := hyv
        rw [hy1] at h
        norm_num at h
        omega
      norm_num [rot_flag_10]
      have hylt : y < 2 ^ k := by omega
      have hwy : (2 ^ k - 1 + U32 - y) % U32 = 2 ^ k - 1 - y :=
        wrap_sub_small (2 ^ k) y hsU hylt
      have hwx : ((2 ^ k - 1 + U32 - x) % U32) % 2 ^ k = 2 ^ k - 1 - x % 2 ^ k :=
        wrap_sub_mod (2 ^ k) U32 x (Nat.two_pow_pos k) (pow_dvd_U32 k (by omega)) hxU
      rw [hwy]
      have hE : hilbertLoopEncode k (2 ^ k - 1 - y) ((2 ^ k - 1 + U32 - x) % U32)
          = hilbertLoopEncode k (2 ^ k - 1 - y) (2 ^ k - 1 - x % 2 ^ k) :=
        hilbertLoopEncode_mod k (by omega) _ _ _ _
          (by omega) (Nat.mod_lt _ U32_pos) (by omega) (by omega)
          rfl (by rw [hwx]; exact (Nat.mod_eq_of_lt (by omega)).symm)
      rw [hE, ih hk31 (2 ^ k - 1 - y) (2 ^ k - 1 - x % 2 ^ k) (by omega) (by omega)]
      rw [decodeStep_q3 (2 ^ k) (2 ^ k - 1 - y) (2 ^ k - 1 - x % 2 ^ k)
        (by omega) (by omega) hsU]
      have e1 : 2 ^ k - 1 - (2 ^ k - 1 - x % 2 ^ k) + 2 ^ k = x := by omega
      have e2 : 2 ^ k - 1 - (2 ^ k - 1 - y) = y := by omega
      rw [e1, e2]
    · -- both bits 1: quadrant 2, identity rotation
      rw [hx1, hy1]
      have hxe : x = 2 ^ k + x % 2 ^ k := by
        have h := hxv
        rw [hx1] at h
        norm_num at h
        omega
      have hye : y = 2 ^ k + y % 2 ^ k := by
        have h := hyv
        rw [hy1] at h
        norm_num at h
        omega
      norm_num [rot_flag_11]
      have hE : hilbertLoopEncode k x y = hilbertLoopEncode k (x % 2 ^ k) (y % 2 ^ k) :=
        hilbertLoopEncode_mod k (by omega) x y (x % 2 ^ k) (y % 2 ^ k) hxU hyU
          (by omega) (by omega)
          (Nat.mod_mod_of_dvd x (dvd_refl _)).symm (Nat.mod_mod_of_dvd y (dvd_refl _)).symm
      rw [hE, ih hk31 (x % 2 ^ k) (y % 2 ^ k) hxm hym,
        show (3 ^^^ 1 : Nat) = 2 from by decide, decodeStep_q2]
      have e1 : x % 2 ^ k + 2 ^ k = x := by omega
      have e2 : y % 2 ^ k + 2 ^ k = y := by omega
      rw [e1, e2]

/-- C1: for every order in `[4, 16]` and every pair `(x, y)` with
`x, y < getDimension order = 2^order`, decoding the encoded index
returns the original point:
`hilbertIndexToXY (hilbertXYToIndex x y order) order = (x, y)`. -/
theorem hilbert_roundtrip (order x y : Nat) (h4 : 4 ≤ order) (h16 : order ≤ 16)
    (hx : x < getDimension order) (hy : y < getDimension order) :
    hilbertIndexToXY (hilbertXYToIndex x y order) order = (x, y) := by
  have hvalid : isValidOrder order = true := by
    unfold isValidOrder
    simp only [Bool.and_eq_true, decide_eq_true_eq]
    exact ⟨h4, h16⟩
  have hdim : getDimension order = 2 ^ order := by
    unfold getDimension
    rw [if_pos hvalid]
  unfold hilbertIndexToXY hilbertXYToIndex
  rw [if_pos hvalid, if_pos hvalid]
  rw [hdim] at hx hy
  exact hilbert_roundtrip_core order (by omega) x y hx hy

/-- Witness for C1 at order 4 and the point `(3, 9)` (index 70). -/
theorem hilbert_roundtrip_witness :
    hilbertIndexToXY (hilbertXYToIndex 3 9 4) 4 = (3, 9) :=
  hilbert_roundtrip 4 3 9 (by decide) (by decide) (by decide) (by decide)
